import Mathlib

/-!
Verification of the `indices` module (indices.py): eager and lazy index and
index+elements iteration over zero or more sequences, plus a reimplementation
of `enumerate` (PEP 279).

Modelling conventions.  A Python sequence is a `List α`; a call with n
sequence arguments passes a `List (List α)` (the ordered argument tuple).
Python 2 `range` builds a full list, modelled by `List.range`.  Python 2
`xrange` is a lazy re-iterable object storing only its bound (`XRangeObj`);
`iter` on it gives a fresh cursor (`XRIter`).  A generator function
(`xirange`, `enumerate`) runs none of its body at call time: calling it only
builds a suspended generator; the body runs when items are requested.  Each
generator is embedded as an explicit state machine whose step function takes
the CURRENT contents of the input sequences (the sequences are mutable Python
objects, so contents can differ from step to step; a schedule `Nat → heap`
gives the contents at each step time).  `StepRes.stop` is StopIteration,
`StepRes.error` any other exception (IndexError, TypeError); a closed
generator is in state `done`.
-/

namespace Indices

variable {α : Type}

/-- Values held by the Python sequences in concrete test cases: integers and
characters (a Python string is a sequence of characters). -/
inductive Val where
  | int (n : Int)
  | chr (c : Char)
deriving DecidableEq

/-- The Python expression min(ns) over a list of numbers, as the source uses
it in min([len(sequence) for sequence in sequences]).  Python raises on an
empty argument; the source always guards that case away, so the empty case
here is an arbitrary unreachable value 0. -/
def minNat : List Nat → Nat
  | [] => 0
  | [n] => n
  | n :: ns => min n (minNat ns)

/-- min([len(sequence) for sequence in sequences]): the minimum of the input
lengths (0 when there are no sequences; the source guards that case). -/
def minLen (seqs : List (List α)) : Nat := minNat (seqs.map List.length)

/-- indices(*sequences) from the source: range(0) when no sequences are
given, else range(min of the lengths).  A Python 2 range call builds the
fully materialized list. -/
def indices (seqs : List (List α)) : List Nat :=
  if seqs.length = 0 then List.range 0
  else List.range (minLen seqs)

/-- The comprehension [sequence[i] for sequence in sequences]: reads position
i from every sequence; none models the IndexError raised when a read is out
of range, which the module propagates unchanged. -/
def row? : List (List α) → Nat → Option (List α)
  | [], _ => some []
  | s :: rest, i =>
    match s[i]?, row? rest i with
    | some x, some xs => some (x :: xs)
    | _, _ => none

/-- The elements at position i of every sequence, as a total value (the value
of row? when every read is in range; used to state theorems). -/
def rowVal (seqs : List (List α)) (i : Nat) : List α := (row? seqs i).getD []

/-- The comprehension [tuple([i] + [sequence[i] for sequence in sequences])
for i in range(l)], built position by position: the first Nat argument counts
the positions of range(l) that remain and the second is the next position i.
A failing element read propagates as none (it cannot fail for i below every
length, see row_some). -/
def rowsAux (seqs : List (List α)) : Nat → Nat → Option (List (Nat × List α))
  | 0, _ => some []
  | f + 1, i =>
    match row? seqs i, rowsAux seqs f (i + 1) with
    | some es, some rest => some ((i, es) :: rest)
    | _, _ => none

/-- irange(*sequences) from the source: with at least one sequence it builds
the fully materialized list of index+elements tuples over range(min of the
lengths); with zero sequences the guard if len(sequences) > 0 fails and the
function falls off its end, returning None (modelled by none). -/
def irange (seqs : List (List α)) : Option (List (Nat × List α)) :=
  if 0 < seqs.length then rowsAux seqs (minLen seqs) 0 else none

/-- A Python 2 xrange object: it stores only its bound.  It is a lazy
sequence that can be iterated any number of times; every iteration starts
from a fresh cursor. -/
structure XRangeObj where
  bound : Nat
deriving DecidableEq

/-- An iterator obtained from an xrange object: the bound plus a cursor. -/
structure XRIter where
  bound : Nat
  cur : Nat
deriving DecidableEq

/-- xindices(*sequences) from the source: xrange(0) for zero sequences, else
xrange(min of the lengths).  The min is evaluated here, at call time. -/
def xindices (seqs : List (List α)) : XRangeObj :=
  if seqs.length = 0 then ⟨0⟩ else ⟨minLen seqs⟩

/-- iter(x) on an xrange object: a fresh iterator starting at cursor 0. -/
def xrIter (x : XRangeObj) : XRIter := ⟨x.bound, 0⟩

/-- next() on an xrange iterator: while the cursor is below the bound it
yields the cursor and advances; none is the StopIteration signal. -/
def xriStep (it : XRIter) : Option (Nat × XRIter) :=
  if it.cur < it.bound then some (it.cur, ⟨it.bound, it.cur + 1⟩) else none

/-- Repeatedly request items from an xrange iterator (the first argument is
fuel; bound - cur steps always suffice). -/
def xrDrainAux : Nat → XRIter → List Nat
  | 0, _ => []
  | f + 1, it =>
    match xriStep it with
    | some (x, it2) => x :: xrDrainAux f it2
    | none => []

/-- Fully drain an xrange iterator. -/
def xrDrain (it : XRIter) : List Nat := xrDrainAux (it.bound - it.cur) it

/-- One observable step of a generator: it yields an item and a next state,
or stops (StopIteration) into a next state, or raises (any exception other
than StopIteration) into a next state. -/
inductive StepRes (ι σ : Type) where
  | yield (x : ι) (s : σ)
  | stop (s : σ)
  | error (s : σ)
deriving DecidableEq

/-- Drive a generator.  sched t is the contents of the mutable input
sequences at the time step t executes; the two Nat arguments are fuel and
the current step time.  Driving stops at the first stop or error signal. -/
def runGen {Hp ι St : Type} (step : Hp → St → StepRes ι St) (sched : Nat → Hp) :
    Nat → Nat → St → List ι
  | 0, _, _ => []
  | f + 1, t, s =>
    match step (sched t) s with
    | .yield x s2 => x :: runGen step sched f (t + 1) s2
    | .stop _ => []
    | .error _ => []

/-- The state a generator is left in after driving it as runGen does. -/
def stateAfterGen {Hp ι St : Type} (step : Hp → St → StepRes ι St)
    (sched : Nat → Hp) : Nat → Nat → St → St
  | 0, _, s => s
  | f + 1, t, s =>
    match step (sched t) s with
    | .yield _ s2 => stateAfterGen step sched f (t + 1) s2
    | .stop s2 => s2
    | .error s2 => s2

/-- Suspension states of the xirange generator: start is the state right
after the call (no body code has run: calling a Python generator function
only builds the generator), running l i is suspended at the yield with bound
l and cursor i, done is closed. -/
inductive XIState where
  | start
  | running (l : Nat) (i : Nat)
  | done
deriving DecidableEq

/-- One resumption of the xirange generator body against the current
contents of its input sequences.  From start the body runs for the first
time: it checks the guard if len(sequences) > 0, computes the bound
l = min([len(sequence) ...]) from the contents as they are NOW, and either
yields the tuple at position 0 or stops.  From running l i it yields the
tuple at position i read from the contents as they are now, or stops at the
bound l that is stored in the suspended frame.  A failed element read is the
propagated IndexError. -/
def xirStep (heap : List (List α)) : XIState → StepRes (Nat × List α) XIState
  | .start =>
    if heap.length = 0 then .stop .done
    else
      if 0 < minLen heap then
        match row? heap 0 with
        | some es => .yield (0, es) (.running (minLen heap) 1)
        | none => .error .done
      else .stop .done
  | .running l i =>
    if i < l then
      match row? heap i with
      | some es => .yield (i, es) (.running l (i + 1))
      | none => .error .done
    else .stop .done
  | .done => .stop .done

instance {ε β : Type} [DecidableEq ε] [DecidableEq β] : DecidableEq (Except ε β) := fun a b =>
  match a, b with
  | .error x, .error y =>
    if h : x = y then .isTrue (by rw [h]) else .isFalse (by intro hh; cases hh; exact h rfl)
  | .error _, .ok _ => .isFalse (by intro hh; cases hh)
  | .ok _, .error _ => .isFalse (by intro hh; cases hh)
  | .ok x, .ok y =>
    if h : x = y then .isTrue (by rw [h]) else .isFalse (by intro hh; cases hh; exact h rfl)

/-- States of the enumerate generator: start holds the untouched argument
(calling a generator function runs none of the body, so iter(sequence) has
not been requested yet), running holds the not yet consumed rest of the
iterator together with the counter i, done is closed.  The argument is an
iterable whose items form the list xs (Except.ok xs), or a value that does
not support iteration (Except.error (), on which iter raises). -/
inductive EnumState (α : Type) where
  | start (a : Except Unit (List α))
  | running (rest : List α) (i : Nat)
  | done
deriving DecidableEq

/-- enumerate(sequence) from the source: builds the generator in its start
state; no body code runs and the argument is stored untouched. -/
def enumerate (a : Except Unit (List α)) : EnumState α := EnumState.start a

/-- One resumption of the enumerate generator.  From start the body runs for
the first time: i = 0 and it = iter(sequence) execute, and a non-iterable
argument raises there; then it.next() either stops (the StopIteration of an
already empty input propagates as the termination of the generator itself)
or yields (0, first item).  From running, it.next() again stops or yields,
the counter growing by one per produced item. -/
def enumStep : Unit → EnumState α → StepRes (Nat × α) (EnumState α)
  | _, .start a =>
    match a with
    | .error _ => .error .done
    | .ok [] => .stop .done
    | .ok (x :: rest) => .yield (0, x) (.running rest 1)
  | _, .running [] _ => .stop .done
  | _, .running (x :: rest) i => .yield (i, x) (.running rest (i + 1))
  | _, .done => .stop .done

/-- minNat is a lower bound of every member. -/
theorem minNat_le : ∀ (ns : List Nat), ∀ n ∈ ns, minNat ns ≤ n := by
  intro ns
  induction ns with
  | nil => intro n hn; cases hn
  | cons a t ih =>
    intro n hn
    cases t with
    | nil =>
      rcases List.mem_singleton.mp hn with rfl
      simp [minNat]
    | cons b u =>
      rcases List.mem_cons.mp hn with h | h
      · subst h
        exact min_le_left _ _
      · exact le_trans (min_le_right _ _) (ih n h)

/-- minLen bounds the length of every input sequence. -/
theorem minLen_le (seqs : List (List α)) (s : List α) (hs : s ∈ seqs) :
    minLen seqs ≤ s.length :=
  minNat_le _ _ (List.mem_map_of_mem List.length hs)

/-- When position i is in range of every sequence, the row of element reads
succeeds, has one entry per sequence, and its k-th entry is the read of
position i from the k-th sequence. -/
theorem row_some (seqs : List (List α)) (i : Nat)
    (h : ∀ s ∈ seqs, i < s.length) :
    ∃ es : List α, row? seqs i = some es ∧ es.length = seqs.length ∧
      ∀ k : Nat, es[k]? = (seqs[k]?).bind (fun s => s[i]?) := by
  induction seqs with
  | nil =>
    refine ⟨[], rfl, rfl, ?_⟩
    intro k
    simp
  | cons s rest ih =>
    obtain ⟨es, he, hlen, hk⟩ := ih (fun t ht => h t (List.mem_cons_of_mem _ ht))
    have hs : i < s.length := h s (List.mem_cons_self _ _)
    have hx : s[i]? = some s[i] := List.getElem?_eq_getElem hs
    refine ⟨s[i] :: es, ?_, by simp [hlen], ?_⟩
    · simp [row?, hx, he]
    · intro k
      cases k with
      | zero => simp [hx]
      | succ k => simp [hk k]

/-- rowVal agrees with a successful row?. -/
theorem rowVal_eq {seqs : List (List α)} {i : Nat} {es : List α}
    (h : row? seqs i = some es) : rowVal seqs i = es := by
  simp [rowVal, h]

/-- The tuple-building loop of irange: with every read in range it produces
the tuples (t, elements at t) for the f positions starting at i. -/
theorem rowsAux_eq (seqs : List (List α)) :
    ∀ (f i : Nat), (∀ t, i ≤ t → t < i + f → ∀ s ∈ seqs, t < s.length) →
    rowsAux seqs f i =
      some ((List.range' i f).map (fun t => (t, rowVal seqs t))) := by
  intro f
  induction f with
  | zero =>
    intro i h
    simp [rowsAux, List.range']
  | succ f ih =>
    intro i h
    obtain ⟨es, he, -, -⟩ := row_some seqs i (fun s hs => h i le_rfl (by omega) s hs)
    have hrest := ih (i + 1) (fun t h1 h2 s hs => h t (by omega) (by omega) s hs)
    simp [rowsAux, he, hrest, List.range', rowVal_eq he]

/-- With at least one input, irange returns the materialized list of tuples
(t, elements at position t) for t over range(minLen). -/
theorem irange_eq (seqs : List (List α)) (h : 0 < seqs.length) :
    irange seqs =
      some ((List.range (minLen seqs)).map (fun t => (t, rowVal seqs t))) := by
  have hk : ∀ t, 0 ≤ t → t < 0 + minLen seqs → ∀ s ∈ seqs, t < s.length := by
    intro t _ ht s hs
    exact lt_of_lt_of_le (by simpa using ht) (minLen_le seqs s hs)
  have h2 := rowsAux_eq seqs (minLen seqs) 0 hk
  simp [irange, Nat.pos_iff_ne_zero.mp h, h2, List.range_eq_range']

/-- indices always returns range(minLen): the guard only separates the
zero-argument case, where minLen is 0 as well. -/
theorem indices_eq (seqs : List (List α)) :
    indices seqs = List.range (minLen seqs) := by
  by_cases h : seqs.length = 0
  · have he : seqs = [] := List.length_eq_zero.mp h
    subst he
    simp [indices, minLen, minNat]
  · simp [indices, h]

/-- Draining an xrange iterator yields the cursor positions up to the
bound. -/
theorem xrDrainAux_eq :
    ∀ (f c b : Nat), b - c ≤ f → xrDrainAux f ⟨b, c⟩ = List.range' c (b - c) := by
  intro f
  induction f with
  | zero =>
    intro c b h
    have h0 : b - c = 0 := by omega
    simp [xrDrainAux, h0, List.range']
  | succ f ih =>
    intro c b h
    by_cases hc : c < b
    · have h2 : b - c = (b - (c + 1)) + 1 := by omega
      rw [h2]
      simp only [List.range']
      simp [xrDrainAux, xriStep, hc]
      rw [ih (c + 1) b (by omega)]
    · have h0 : b - c = 0 := by omega
      simp [xrDrainAux, xriStep, hc, h0, List.range']

/-- Fully draining an iterator of an xrange object gives range(bound). -/
theorem xrDrain_iter (x : XRangeObj) : xrDrain (xrIter x) = List.range x.bound := by
  have h := xrDrainAux_eq x.bound 0 x.bound le_rfl
  simp [xrDrain, xrIter, List.range_eq_range'] at h ⊢
  simpa using h

/-- The bound of the xrange object built by xindices is minLen. -/
theorem xindices_bound (seqs : List (List α)) :
    (xindices seqs).bound = minLen seqs := by
  by_cases h : seqs.length = 0
  · have he : seqs = [] := List.length_eq_zero.mp h
    subst he
    simp [xindices, minLen, minNat]
  · simp [xindices, h]

/-- Driving the xirange generator from a suspended frame with bound l and
cursor i: with enough fuel and every read in range, it produces the tuples
(t, elements of the step-t contents at position t) for t from i to l.  The
bound l stored in the frame is never recomputed; the element reads of
position t use the contents current at step t. -/
theorem xir_run_running (sched : Nat → List (List α)) :
    ∀ (f l i : Nat), l - i ≤ f →
    (∀ t, i ≤ t → t < l → ∀ s ∈ sched t, t < s.length) →
    runGen xirStep sched f i (XIState.running l i) =
      (List.range' i (l - i)).map (fun t => (t, rowVal (sched t) t)) := by
  intro f
  induction f with
  | zero =>
    intro l i h hk
    have h0 : l - i = 0 := by omega
    simp [runGen, h0, List.range']
  | succ f ih =>
    intro l i h hk
    by_cases hi : i < l
    · obtain ⟨es, he, -, -⟩ := row_some (sched i) i (fun s hs => hk i le_rfl hi s hs)
      have h2 : l - i = (l - (i + 1)) + 1 := by omega
      rw [h2]
      simp only [List.range']
      simp [runGen, xirStep, hi, he, rowVal_eq he]
      exact ih l (i + 1) (by omega) (fun t h1 h3 s hs => hk t (by omega) h3 s hs)
    · have h0 : l - i = 0 := by omega
      simp [runGen, xirStep, hi, h0, List.range']

/-- Driving the xirange generator from its start state: the bound is the
minimum length of the contents at the time of the FIRST step (sched 0), and
the items are the tuples over range of that bound, each reading elements
from the contents current at its own step. -/
theorem xir_run_start (sched : Nat → List (List α)) (f : Nat)
    (hf : minLen (sched 0) ≤ f)
    (hk : ∀ t, t < minLen (sched 0) → ∀ s ∈ sched t, t < s.length) :
    runGen xirStep sched f 0 XIState.start =
      (List.range (minLen (sched 0))).map (fun t => (t, rowVal (sched t) t)) := by
  by_cases h0 : (sched 0).length = 0
  · have he : sched 0 = [] := List.length_eq_zero.mp h0
    have hm : minLen (sched 0) = 0 := by rw [he]; rfl
    rw [hm]
    cases f with
    | zero => simp [runGen]
    | succ f => simp [runGen, xirStep, h0]
  · by_cases hl : 0 < minLen (sched 0)
    · cases f with
      | zero => omega
      | succ f =>
        obtain ⟨es, he, -, -⟩ := row_some (sched 0) 0 (fun s hs => hk 0 hl s hs)
        have hrest := xir_run_running sched f (minLen (sched 0)) 1 (by omega)
          (fun t h1 h2 s hs => hk t h2 s hs)
        rw [List.range_eq_range']
        have hm : minLen (sched 0) = (minLen (sched 0) - 1) + 1 := by omega
        rw [hm]
        simp only [List.range']
        simp [runGen, xirStep, h0, hl, he, rowVal_eq he, hrest]
    · have hm : minLen (sched 0) = 0 := by omega
      rw [hm]
      cases f with
      | zero => simp [runGen]
      | succ f => simp [runGen, xirStep, h0, hl]

/-- Driving the enumerate generator from a suspended frame: it pairs the
counter values with the remaining items, in order. -/
theorem enum_run_running :
    ∀ (rest : List α) (i t f : Nat), rest.length ≤ f →
    runGen enumStep (fun _ => ()) f t (EnumState.running rest i) =
      List.enumFrom i rest := by
  intro rest
  induction rest with
  | nil =>
    intro i t f h
    cases f with
    | zero => simp [runGen, List.enumFrom]
    | succ f => simp [runGen, enumStep, List.enumFrom]
  | cons x r ih =>
    intro i t f h
    cases f with
    | zero => simp at h
    | succ f =>
      simp [runGen, enumStep, List.enumFrom]
      exact ih (i + 1) (t + 1) f (by simpa using h)

/-- Fully driving the enumerate generator on an iterable with items xs gives
the pairs (0, xs 0), (1, xs 1), ...: List.enum xs. -/
theorem enum_run (xs : List α) (f : Nat) (h : xs.length ≤ f) :
    runGen enumStep (fun _ => ()) f 0 (enumerate (Except.ok xs)) = xs.enum := by
  cases xs with
  | nil =>
    cases f with
    | zero => simp [runGen, List.enum]
    | succ f => simp [runGen, enumStep, enumerate, List.enum]
  | cons x r =>
    cases f with
    | zero => simp at h
    | succ f =>
      have hr := enum_run_running r 1 1 f (by simpa using h)
      simp [runGen, enumStep, enumerate, hr, List.enum]

/-- Whenever the xirange generator signals StopIteration it closes: the next
state is done. -/
theorem xirStep_stop (heap : List (List α)) (s t : XIState)
    (h : xirStep heap s = StepRes.stop t) : t = XIState.done := by
  cases s with
  | start =>
    simp only [xirStep] at h
    split at h
    · injection h with h2
      exact h2.symm
    · split at h
      · split at h
        · exact StepRes.noConfusion h
        · exact StepRes.noConfusion h
      · injection h with h2
        exact h2.symm
  | running l i =>
    simp only [xirStep] at h
    split at h
    · split at h
      · exact StepRes.noConfusion h
      · exact StepRes.noConfusion h
    · injection h with h2
      exact h2.symm
  | done =>
    simp only [xirStep] at h
    injection h with h2
    exact h2.symm

/-- Whenever the xirange generator raises it closes: the next state is
done. -/
theorem xirStep_error (heap : List (List α)) (s t : XIState)
    (h : xirStep heap s = StepRes.error t) : t = XIState.done := by
  cases s with
  | start =>
    simp only [xirStep] at h
    split at h
    · exact StepRes.noConfusion h
    · split at h
      · split at h
        · exact StepRes.noConfusion h
        · injection h with h2
          exact h2.symm
      · exact StepRes.noConfusion h
  | running l i =>
    simp only [xirStep] at h
    split at h
    · split at h
      · exact StepRes.noConfusion h
      · injection h with h2
        exact h2.symm
    · exact StepRes.noConfusion h
  | done =>
    simp only [xirStep] at h
    exact StepRes.noConfusion h

/-- Whenever the enumerate generator signals StopIteration or raises it
closes: the next state is done. -/
theorem enumStep_final (s t : EnumState α)
    (h : enumStep () s = StepRes.stop t ∨ enumStep () s = StepRes.error t) :
    t = EnumState.done := by
  cases s with
  | start a =>
    cases a with
    | error e =>
      rcases h with h | h
      · exact StepRes.noConfusion h
      · simp only [enumStep] at h
        injection h with h2
        exact h2.symm
    | ok xs =>
      cases xs with
      | nil =>
        rcases h with h | h
        · simp only [enumStep] at h
          injection h with h2
          exact h2.symm
        · exact StepRes.noConfusion h
      | cons x r =>
        rcases h with h | h
        · exact StepRes.noConfusion h
        · exact StepRes.noConfusion h
  | running rest i =>
    cases rest with
    | nil =>
      rcases h with h | h
      · simp only [enumStep] at h
        injection h with h2
        exact h2.symm
      · exact StepRes.noConfusion h
    | cons x r =>
      rcases h with h | h
      · exact StepRes.noConfusion h
      · exact StepRes.noConfusion h
  | done =>
    rcases h with h | h
    · simp only [enumStep] at h
      injection h with h2
      exact h2.symm
    · exact StepRes.noConfusion h

/-- The exhaustion signal of an xrange iterator is exactly cursor at or past
the bound, and a yield advances the cursor by one under the same bound: the
iterator is forward-only and never wraps. -/
theorem xriStep_spec (it : XRIter) :
    (xriStep it = none ↔ it.bound ≤ it.cur) ∧
    (∀ x it2, xriStep it = some (x, it2) →
      x = it.cur ∧ it2.cur = it.cur + 1 ∧ it2.bound = it.bound) := by
  constructor
  · by_cases h : it.cur < it.bound
    · simp only [xriStep, if_pos h]
      constructor
      · intro hh
        exact Option.noConfusion hh
      · intro hh
        omega
    · simp only [xriStep, if_neg h]
      constructor
      · intro _
        omega
      · intro _
        trivial
  · intro x it2 h
    by_cases hc : it.cur < it.bound
    · simp [xriStep, hc] at h
      obtain ⟨h1, h2⟩ := h
      subst h1
      rw [← h2]
      exact ⟨rfl, rfl, rfl⟩
    · simp [xriStep, hc] at h

/-- Claim C1: for every call of the eager indices with n ≥ 0 finite
sequences, the result is the fully materialized list [0, 1, ..., m-1] where
m is the minimum of the input lengths for n ≥ 1 and m = 0 for n = 0 (minLen
encodes exactly that convention); in particular the zero-argument call
returns the empty list and is not an error (the embedding is total). -/
theorem c1_indices_range (β : Type) :
    (∀ seqs : List (List β),
      indices seqs = List.range (minLen seqs) ∧
      (indices seqs).length = minLen seqs) ∧
    indices ([] : List (List β)) = [] := by
  constructor
  · intro seqs
    have h := indices_eq seqs
    refine ⟨h, ?_⟩
    rw [h]
    exact List.length_range _
  · rfl

/-- Claim C5: the zero-argument calls of the two eager operations are
asymmetric: indices() returns the empty but well-defined list, while
irange() returns None (none), a distinguished no-result value rather than an
empty collection; neither raises (both embeddings return a value, and the
none of irange comes from the guard branch that returns None, not from a
failing read). -/
theorem c5_zero_asymmetry :
    indices ([] : List (List Val)) = [] ∧ irange ([] : List (List Val)) = none := by
  exact ⟨rfl, rfl⟩

/-- Claim C8: xirange called with zero sequences yields an immediately
exhausted generator: every drain gives no items, and the very first request
signals StopIteration (stop, not error) without computing any minimum - the
guard if len(sequences) > 0 fails before min([...]) (which would raise on an
empty argument list) is ever evaluated, as the stop branch of xirStep
shows.  The call itself returns the suspended start state, a generator and
not an empty collection. -/
theorem c8_xirange_zero :
    (∀ f : Nat, runGen xirStep (fun _ => ([] : List (List Val))) f 0 XIState.start = []) ∧
    xirStep ([] : List (List Val)) XIState.start = .stop XIState.done := by
  constructor
  · intro f
    cases f with
    | zero => rfl
    | succ f => rfl
  · rfl

/-- Claim C10: constructing the enumerate generator touches its argument not
at all - calling a generator function runs none of the body, so iter is not
requested; the construction is a total function that merely stores the
argument, succeeding even for a non-iterable argument (Except.error), and
the iteration failure is first raised at the first item request, as the
error result of the first step. -/
theorem c10_enumerate_deferred (β : Type) :
    (∀ a : Except Unit (List β), enumerate a = EnumState.start a) ∧
    enumStep () (enumerate (Except.error () : Except Unit (List Val))) =
      .error EnumState.done ∧
    runGen enumStep (fun _ => ()) 5 0
      (enumerate (Except.error () : Except Unit (List Val))) = [] := by
  exact ⟨fun a => rfl, rfl, rfl⟩

/-- Claim C2, counterexample: the claim quantifies over n ≥ 0 and asserts
the result is a sequence of length m.  At n = 0 the code returns None
(none), so no result sequence exists at all: the claim fails at the
zero-argument call. -/
theorem c2_counterexample :
    ¬ ∃ rows : List (Nat × List Val), irange ([] : List (List Val)) = some rows := by
  rintro ⟨rows, h⟩
  simp [irange] at h

/-- Claim C2 as amended: for n ≥ 1 sequences, irange returns a materialized
list of length m = minimum input length; the tuple at position j has first
component j and then one component per input sequence, the (k+1)-th being
the k-th sequence read at position j; and concretely
irange([1,2,3], "ab") = [(0, 1, a), (1, 2, b)].  The zero-argument call
instead returns None (see the counterexample). -/
theorem c2_irange_tuples (β : Type) :
    (∀ seqs : List (List β), 0 < seqs.length →
      ∃ rows : List (Nat × List β), irange seqs = some rows ∧
        rows.length = minLen seqs ∧
        ∀ j : Nat, ∀ r : Nat × List β, rows[j]? = some r →
          r.1 = j ∧ r.2.length = seqs.length ∧
          ∀ k : Nat, ∀ s : List β, seqs[k]? = some s → r.2[k]? = s[j]?) ∧
    irange [[Val.int 1, Val.int 2, Val.int 3], [Val.chr 'a', Val.chr 'b']] =
      some [(0, [Val.int 1, Val.chr 'a']), (1, [Val.int 2, Val.chr 'b'])] := by
  constructor
  · intro seqs h
    refine ⟨(List.range (minLen seqs)).map (fun t => (t, rowVal seqs t)),
      irange_eq seqs h, by simp, ?_⟩
    intro j r hjr
    rw [List.getElem?_map] at hjr
    by_cases hj : j < minLen seqs
    · rw [List.getElem?_range hj] at hjr
      simp at hjr
      have hread : ∀ s ∈ seqs, j < s.length :=
        fun s hs => lt_of_lt_of_le hj (minLen_le seqs s hs)
      obtain ⟨es, he, hlen, hk⟩ := row_some seqs j hread
      subst hjr
      refine ⟨rfl, ?_, ?_⟩
      · simp [rowVal_eq he, hlen]
      · intro k s hks
        simp only [rowVal_eq he]
        rw [hk k, hks]
        rfl
    · rw [List.getElem?_eq_none (by simpa using Nat.not_lt.mp hj)] at hjr
      simp at hjr
  · decide

/-- Claim C4, counterexample: at the zero-argument call the fully drained
lazy xirange yields the empty list of items, but the eager irange returns
None (none), not a sequence, so the drained lazy result does not equal the
eager result there. -/
theorem c4_counterexample :
    runGen xirStep (fun _ => ([] : List (List Val))) 1 0 XIState.start = [] ∧
    irange ([] : List (List Val)) = none ∧
    irange ([] : List (List Val)) ≠
      some (runGen xirStep (fun _ => ([] : List (List Val))) 1 0 XIState.start) := by
  refine ⟨rfl, rfl, ?_⟩
  intro h
  simp [irange] at h

/-- Claim C4 as amended: draining xindices equals indices for every n ≥ 0,
and for n ≥ 1 (with the inputs unchanged during iteration, the constant
schedule, and enough fuel to drain) the eager irange returns exactly the
list the drained lazy xirange yields.  At n = 0 the pair differs: irange
returns None while the drained xirange yields no items. -/
theorem c4_lazy_eager (β : Type) :
    (∀ seqs : List (List β), xrDrain (xrIter (xindices seqs)) = indices seqs) ∧
    (∀ seqs : List (List β), 0 < seqs.length → ∀ f : Nat, minLen seqs ≤ f →
      irange seqs = some (runGen xirStep (fun _ => seqs) f 0 XIState.start)) := by
  constructor
  · intro seqs
    rw [xrDrain_iter, xindices_bound, indices_eq]
  · intro seqs h f hf
    have hk : ∀ t, t < minLen ((fun _ => seqs) 0) →
        ∀ s ∈ (fun _ => seqs) t, t < s.length := by
      intro t ht s hs
      exact lt_of_lt_of_le ht (minLen_le seqs s hs)
    rw [xir_run_start (fun _ => seqs) f hf hk, irange_eq seqs h]

/-- Witness for the amended claim C2 at the concrete input of the spec. -/
theorem c2_witness :
    ∃ rows : List (Nat × List Val),
      irange [[Val.int 1, Val.int 2, Val.int 3], [Val.chr 'a', Val.chr 'b']] = some rows ∧
      rows.length = minLen [[Val.int 1, Val.int 2, Val.int 3], [Val.chr 'a', Val.chr 'b']] ∧
      ∀ j : Nat, ∀ r : Nat × List Val, rows[j]? = some r →
        r.1 = j ∧
        r.2.length =
          ([[Val.int 1, Val.int 2, Val.int 3],
            [Val.chr 'a', Val.chr 'b']] : List (List Val)).length ∧
        ∀ k : Nat, ∀ s : List Val,
          ([[Val.int 1, Val.int 2, Val.int 3],
            [Val.chr 'a', Val.chr 'b']] : List (List Val))[k]? = some s →
          r.2[k]? = s[j]? :=
  (c2_irange_tuples Val).1
    [[Val.int 1, Val.int 2, Val.int 3], [Val.chr 'a', Val.chr 'b']] (by decide)

/-- Witness for the amended claim C4 at a concrete one-sequence input. -/
theorem c4_witness :
    irange [[Val.int 1]] =
      some (runGen xirStep (fun _ => ([[Val.int 1]] : List (List Val))) 1 0 XIState.start) :=
  (c4_lazy_eager Val).2 [[Val.int 1]] (by decide) 1 (by decide)

/-- Claim C3, counterexample: the claim says the bound of BOTH lazy variants
is fixed at construction, so a later length change is not reflected.  For
xirange that is false: the body of a generator function does not run at the
call, so nothing is computed at construction.  Concretely, construct
xirange(L) while L = [0] (minimum length 1, first conjunct); append to L
before the first item is requested, so every step sees contents [0, 1]; the
drain then produces 2 items (second conjunct), not the 1 item a
construction-time bound would give. -/
theorem c3_counterexample :
    minLen ([[Val.int 0]] : List (List Val)) = 1 ∧
    runGen xirStep (fun _ => ([[Val.int 0, Val.int 1]] : List (List Val))) 3 0 XIState.start =
      [(0, [Val.int 0]), (1, [Val.int 1])] := by
  exact ⟨rfl, by decide⟩

/-- Claim C3 as amended: for xindices the bound is computed eagerly at
construction - the xrange object stores only the number minLen of the
construction-time contents, and draining it yields range of exactly that
number with no reference to any later state of the inputs.  For xirange the
bound is instead computed once at the FIRST item request, from the contents
current at that moment (sched 0), and is fixed from then on: with any
schedule of later contents (allowed to vary, constrained only not to shrink
below the bound), the number of items produced is the minimum length seen at
step 0, not re-evaluated at any later step. -/
theorem c3_bound_binding (β : Type) :
    (∀ seqs : List (List β),
      xrDrain (xrIter (xindices seqs)) = List.range (minLen seqs)) ∧
    (∀ sched : Nat → List (List β), ∀ f : Nat, minLen (sched 0) ≤ f →
      (∀ t, t < minLen (sched 0) → ∀ s ∈ sched t, t < s.length) →
      (runGen xirStep sched f 0 XIState.start).length = minLen (sched 0)) := by
  constructor
  · intro seqs
    rw [xrDrain_iter, xindices_bound]
  · intro sched f hf hk
    rw [xir_run_start sched f hf hk]
    simp

/-- Witness for the amended claim C3 at a concrete constant schedule. -/
theorem c3_witness :
    (runGen xirStep (fun _ => ([[Val.int 3, Val.int 4]] : List (List Val))) 2 0
      XIState.start).length = minLen ([[Val.int 3, Val.int 4]] : List (List Val)) :=
  (c3_bound_binding Val).2 (fun _ => [[Val.int 3, Val.int 4]]) 2 (by decide)
    (by
      intro t ht s hs
      have hs2 : s = [Val.int 3, Val.int 4] := by simpa using hs
      subst hs2
      have ht2 : t < 2 := by simpa [minLen, minNat] using ht
      simpa using ht2)

/-- Claim C6, counterexample: xindices returns an xrange object, not a
generator, and an xrange is restartable.  Concretely, for xindices([5]) one
full pass yields [0] (first conjunct) and leaves its iterator exhausted:
that iterator signals termination and keeps signalling it (second
conjunct).  But a further request for items from the SAME returned object -
what a second for loop or list() call performs, going through iter() again -
yields the item 0 anew (third conjunct): the produced lazy sequence
restarts, so it is not single-pass and non-restartable as claimed. -/
theorem c6_counterexample :
    xrDrain (xrIter (xindices [[Val.int 5]])) = [0] ∧
    xriStep ⟨(xindices [[Val.int 5]] : XRangeObj).bound, 1⟩ = none ∧
    xriStep (xrIter (xindices [[Val.int 5]])) = some (0, ⟨1, 1⟩) := by
  exact ⟨by decide, by decide, by decide⟩

/-- Claim C6 as amended: the generators produced by xirange and enumerate
are single-pass and non-restartable - whenever their step signals
StopIteration or raises, the generator closes into the absorbing done state,
and the step on done signals StopIteration forever.  For xindices, which
returns an xrange object, each ITERATOR drawn from the object is single
pass - its exhaustion signal is exactly cursor at or past the bound, and
every yield advances the cursor by one under an unchanged bound, so it never
resumes or wraps around - but the object itself may be iterated afresh. -/
theorem c6_single_pass (β : Type) :
    (∀ (heap : List (List β)) (s t : XIState),
      xirStep heap s = .stop t ∨ xirStep heap s = .error t → t = XIState.done) ∧
    (∀ heap : List (List β), xirStep heap XIState.done = .stop XIState.done) ∧
    (∀ (s t : EnumState β),
      enumStep () s = .stop t ∨ enumStep () s = .error t → t = EnumState.done) ∧
    (enumStep () (EnumState.done : EnumState β) = .stop EnumState.done) ∧
    (∀ it : XRIter, (xriStep it = none ↔ it.bound ≤ it.cur) ∧
      (∀ x it2, xriStep it = some (x, it2) →
        x = it.cur ∧ it2.cur = it.cur + 1 ∧ it2.bound = it.bound)) := by
  refine ⟨?_, ?_, enumStep_final, rfl, xriStep_spec⟩
  · intro heap s t h
    rcases h with h | h
    · exact xirStep_stop heap s t h
    · exact xirStep_error heap s t h
  · intro heap
    rfl

/-- Witness for the amended claim C6 at a concrete iterator. -/
theorem c6_witness :
    0 = (⟨2, 0⟩ : XRIter).cur ∧ (⟨2, 1⟩ : XRIter).cur = (⟨2, 0⟩ : XRIter).cur + 1 ∧
      (⟨2, 1⟩ : XRIter).bound = (⟨2, 0⟩ : XRIter).bound :=
  ((c6_single_pass Val).2.2.2.2 ⟨2, 0⟩).2 0 ⟨2, 1⟩ (by decide)

/-- Claim C7: for every finite iterable with items xs, enumerate yields
exactly the pairs (0, xs 0), (1, xs 1), ... in order (the drain equals
List.enum xs), and it terminates exactly when the underlying iterator is
exhausted, propagating that as its own StopIteration rather than an error
(the step on an empty remainder is stop, not error); concretely
enumerate(["x","y","z"]) yields (0, x), (1, y), (2, z) and then rests in
the closed done state. -/
theorem c7_enumerate (β : Type) :
    (∀ (xs : List β) (f : Nat), xs.length ≤ f →
      runGen enumStep (fun _ => ()) f 0 (enumerate (Except.ok xs)) = xs.enum) ∧
    (∀ n : Nat, enumStep () (EnumState.running ([] : List β) n) = .stop EnumState.done) ∧
    runGen enumStep (fun _ => ()) 4 0
      (enumerate (Except.ok [Val.chr 'x', Val.chr 'y', Val.chr 'z'])) =
      [(0, Val.chr 'x'), (1, Val.chr 'y'), (2, Val.chr 'z')] ∧
    stateAfterGen enumStep (fun _ => ()) 4 0
      (enumerate (Except.ok [Val.chr 'x', Val.chr 'y', Val.chr 'z'])) =
      EnumState.done := by
  exact ⟨enum_run, fun n => rfl, by decide, by decide⟩

/-- Witness for claim C7 at a concrete one-item input. -/
theorem c7_witness :
    runGen enumStep (fun _ => ()) 3 0 (enumerate (Except.ok [Val.int 7])) =
      List.enum [Val.int 7] :=
  (c7_enumerate Val).1 [Val.int 7] 3 (by decide)

/-- Claim C9: constructing a lazy variant reads nothing beyond what the
bound needs - the xrange object xindices builds is fully determined by the
input LENGTHS alone (first conjunct), and constructing xirange runs no body
code at all (its start state carries no data).  Element reads happen only at
the step whose cursor reaches their position: the item at position i of a
drained xirange is built from the contents of the inputs as they are at step
i (sched i), not from any earlier snapshot (second conjunct). -/
theorem c9_element_access (β : Type) :
    (∀ seqs seqs2 : List (List β), seqs.map List.length = seqs2.map List.length →
      xindices seqs = xindices seqs2) ∧
    (∀ (sched : Nat → List (List β)) (f i : Nat), minLen (sched 0) ≤ f →
      (∀ t, t < minLen (sched 0) → ∀ s ∈ sched t, t < s.length) →
      i < minLen (sched 0) →
      (runGen xirStep sched f 0 XIState.start)[i]? = some (i, rowVal (sched i) i)) := by
  constructor
  · intro seqs seqs2 h
    have hlen : seqs.length = seqs2.length := by
      have h2 := congrArg List.length h
      simpa using h2
    simp [xindices, minLen, h, hlen]
    rw [hlen]
  · intro sched f i hf hk hi
    rw [xir_run_start sched f hf hk]
    rw [List.getElem?_map, List.getElem?_range hi]
    rfl

/-- Witness for claim C9 at a concrete constant schedule. -/
theorem c9_witness :
    (runGen xirStep (fun _ => ([[Val.int 5]] : List (List Val))) 1 0 XIState.start)[0]? =
      some (0, rowVal ([[Val.int 5]] : List (List Val)) 0) :=
  (c9_element_access Val).2 (fun _ => [[Val.int 5]]) 1 0 (by decide)
    (by
      intro t ht s hs
      have hs2 : s = [Val.int 5] := by simpa using hs
      subst hs2
      have ht2 : t < 1 := by simpa [minLen, minNat] using ht
      simpa using ht2)
    (by decide)

end Indices
